import Mathlib

/-!
Shallow embedding of the dense-matrix engine and the LDA/recognition paths of
the face-recognition repository (matrix.c, lda.c, MATLAB/PCA/Recognition.m),
with theorems settling the specification claims about them.

The C type `precision_t` (double) is embedded as `ℚ`, so every arithmetic
step of the source is exact and decidable.  A C matrix (`matrix_t`) is a
rows/cols pair together with its element function; the column-major data
buffer of the C struct is recovered explicitly where the source reads or
writes raw memory (serialization).
-/

/-- Embedding of `matrix_t`: row count, column count and the element map.
`entry i j` is `elem(M, i, j)` of the source; indices outside
`[0, rows) × [0, cols)` are unconstrained (out-of-bounds memory). -/
structure Mat where
  rows : Nat
  cols : Nat
  entry : Nat → Nat → ℚ

/-- Element-for-element equality of two matrices: equal shapes and equal
entries at every in-range index. -/
def MatEq (A B : Mat) : Prop :=
  A.rows = B.rows ∧ A.cols = B.cols ∧
    ∀ i < A.rows, ∀ j < A.cols, A.entry i j = B.entry i j

instance (A B : Mat) : Decidable (MatEq A B) := by
  unfold MatEq; exact inferInstance

/-- Embedding of `m_identity` (calloc-zeroed storage, then ones on the
diagonal). -/
def m_identity (rows : Nat) : Mat :=
  ⟨rows, rows, fun i j => if i = j then 1 else 0⟩

/-- Embedding of `m_zeros` (calloc-zeroed storage). -/
def m_zeros (rows cols : Nat) : Mat :=
  ⟨rows, cols, fun _ _ => 0⟩

/-- Bitwise xor restricted to the single-bit values `a % 2`, `b % 2` take. -/
def bxor01 (x y : Nat) : Nat :=
  if x = y then 0 else 1

/-- Sign factor `1 - 2 * ((a % 2) ^ (b % 2))` appearing in `m_determinant`
and `m_cofactor` (`^` is C's bitwise xor there, applied to the bits
`a % 2` and `b % 2`). -/
def xsign (a b : Nat) : ℚ :=
  1 - 2 * ((bxor01 (a % 2) (b % 2) : Nat) : ℚ)

/-- Minor built by the fill loop of `m_determinant`: remove row `0` and
column `j` (the loop copies rows `1..rows-1` and every column `k ≠ j`). -/
def minor0 (M : Mat) (j : Nat) : Mat :=
  ⟨M.rows - 1, M.cols - 1, fun r c => M.entry (r + 1) (if c < j then c else c + 1)⟩

/-- Minor built by the fill loop of `m_cofactor`: remove row `i` and
column `j`. -/
def minorIJ (M : Mat) (i j : Nat) : Mat :=
  ⟨M.rows - 1, M.cols - 1, fun r c =>
    M.entry (if r < i then r else r + 1) (if c < j then c else c + 1)⟩

/-- Recursion worker of `m_determinant`, structural in the matrix order.
Mirrors the source: order `< 1` prints an error and returns the initial
`det = 0`; order `1` and `2` are the base cases; otherwise cofactor
expansion along row `0`, where the source computes the sign as
`1 - 2*((i % 2) ^ (j % 2))` with `i` left equal to `M->rows` by the
preceding fill loop. -/
def det_aux : Nat → Mat → ℚ
  | 0, _ => 0
  | 1, M => M.entry 0 0
  | 2, M => M.entry 0 0 * M.entry 1 1 - M.entry 1 0 * M.entry 0 1
  | n + 3, M =>
      ∑ j ∈ Finset.range M.cols,
        xsign M.rows j * M.entry 0 j * det_aux (n + 2) (minor0 M j)

/-- Embedding of `m_determinant` (precondition `M->cols == M->rows` by the
source's assert). -/
def m_determinant (M : Mat) : ℚ :=
  det_aux M.rows M

/-- Embedding of `m_cofactor`: for every `(i, j)` the source stores
`sign(i,j) * m_determinant(minor i j)` at `elem(R, j, i)` (transposed
assembly), so `entry p q` corresponds to `i = q`, `j = p`. -/
def m_cofactor (M : Mat) : Mat :=
  ⟨M.rows, M.cols, fun p q => xsign q p * m_determinant (minorIJ M q p)⟩

/-- Mathematical determinant by cofactor expansion along the first row with
the textbook sign `(-1)^j`; stated from the claim's words, to compare with
the source's `m_determinant`.  The first argument is the order. -/
def specDet : Nat → Mat → ℚ
  | 0, _ => 1
  | n + 1, M =>
      ∑ j ∈ Finset.range (n + 1), (-1 : ℚ) ^ j * M.entry 0 j * specDet n (minor0 M j)

/-- Mathematical determinant of a (square) embedded matrix. -/
def trueDet (M : Mat) : ℚ :=
  specDet M.rows M

/-- Outcome of a C routine that can terminate the process: a normal result,
a `exit(code)` call, or a failed `assert` (which aborts the process). -/
inductive CRes (α : Type) where
  | ok (a : α) : CRes α
  | exited (code : Nat) : CRes α
  | assertFailed : CRes α

/-- Embedding of `m_inverseMatrix`.  The source calls `LAPACKE_dgetrf` and,
whenever `info != 0`, calls `exit(1)`; otherwise `LAPACKE_dgetri`, again
with `exit(1)` on failure.  The LAPACK calls are external collaborators and
are modelled from their contract: in exact arithmetic `dgetrf` reports
`info > 0` (factor `U` exactly singular) precisely when the matrix is
singular, i.e. has determinant zero, and on success `dgetri` produces the
inverse, whose `(i, j)` entry is the signed cofactor `(-1)^(i+j)` times the
determinant of the minor with row `j` and column `i` removed, divided by the
determinant.  (`dgetri` cannot fail once `dgetrf` succeeded, so the second
`exit(1)` is unreachable in this model.) -/
def m_inverseMatrix (M : Mat) : CRes Mat :=
  if trueDet M = 0 then CRes.exited 1
  else
    CRes.ok ⟨M.rows, M.cols, fun i j =>
      (-1 : ℚ) ^ (i + j) * trueDet (minorIJ M j i) / trueDet M⟩

/-- Embedding of `m_dot_subtract`: `assert` on the shapes (process abort on
mismatch), then a freshly allocated elementwise difference. -/
def m_dot_subtract (A B : Mat) : CRes Mat :=
  if A.rows = B.rows ∧ A.cols = B.cols then
    CRes.ok ⟨A.rows, A.cols, fun i j => A.entry i j - B.entry i j⟩
  else CRes.assertFailed

/-- Embedding of `m_dot_add`. -/
def m_dot_add (A B : Mat) : CRes Mat :=
  if A.rows = B.rows ∧ A.cols = B.cols then
    CRes.ok ⟨A.rows, A.cols, fun i j => A.entry i j + B.entry i j⟩
  else CRes.assertFailed

/-- Embedding of `m_dot_division`. -/
def m_dot_division (A B : Mat) : CRes Mat :=
  if A.rows = B.rows ∧ A.cols = B.cols then
    CRes.ok ⟨A.rows, A.cols, fun i j => A.entry i j / B.entry i j⟩
  else CRes.assertFailed

/-- In-range elements of a matrix in the row-major order in which the loops
of `m_normalize` and `m_findNonZeros` visit them (`i` over rows outermost,
`j` over columns innermost). -/
def elemsRM (M : Mat) : List ℚ :=
  (List.range M.rows).flatMap fun i => (List.range M.cols).map (M.entry i)

/-- Minimum found by the first scan of `m_normalize`, starting from
`elem(M, 0, 0)`. -/
def mMin (M : Mat) : ℚ :=
  (elemsRM M).foldl min (M.entry 0 0)

/-- Maximum found by the first scan of `m_normalize`, starting from
`elem(M, 0, 0)`. -/
def mMax (M : Mat) : ℚ :=
  (elemsRM M).foldl max (M.entry 0 0)

/-- Embedding of `m_normalize` (in-place min-max normalization): every
element is replaced by `(x - min) / (max - min)`.  In C the division is a
`double` division, so `max - min = 0` yields NaN (`0/0`); in this exact
embedding division by zero is the ℚ convention `q / 0 = 0` — either way the
result is not `1` on a constant matrix. -/
def m_normalize (M : Mat) : Mat :=
  ⟨M.rows, M.cols, fun i j => (M.entry i j - mMin M) / (mMax M - mMin M)⟩

/-- Index pairs `(i, j)` in the row-major visiting order of the scan loop
of `m_findNonZeros`. -/
def rmIdx (M : Mat) : List (Nat × Nat) :=
  (List.range M.rows).flatMap fun i => (List.range M.cols).map fun j => (i, j)

/-- Values written sequentially by `m_findNonZeros`: for each nonzero
element met in row-major order, the 1-based row index `i + 1` (the column
index is discarded). -/
def nzRows (M : Mat) : List ℚ :=
  ((rmIdx M).filter fun p => M.entry p.1 p.2 != 0).map fun p => (p.1 : ℚ) + 1

/-- Embedding of `m_findNonZeros`: a calloc-zeroed `(rows*cols) × 1` vector
whose first entries are overwritten by `nzRows`. -/
def m_findNonZeros (M : Mat) : Mat :=
  ⟨M.rows * M.cols, 1, fun t _ => (nzRows M).getD t 0⟩

/-- Number of nonzero in-range elements of a matrix (stated from the
claim's words, to compare with the filling of `m_findNonZeros`). -/
def nonzeroCount (M : Mat) : Nat :=
  ∑ i ∈ Finset.range M.rows, ∑ j ∈ Finset.range M.cols,
    if M.entry i j ≠ 0 then 1 else 0

/-- Tokens of a serialized stream: an integer (written by `fprintf %d` or a
raw `fwrite` of an `int`) or a floating-point element (written by
`fprintf %lg` or a raw `fwrite` of a `precision_t`).  Whitespace and
newlines of the text format carry no information for `fscanf` and are not
modelled. -/
inductive Tok where
  | int (n : Int) : Tok
  | prec (q : ℚ) : Tok

/-- Reads the `t`-th element token of a stream (0 when the token is missing
or of the wrong kind, which never happens on the streams produced here). -/
def getPrec (s : List Tok) (t : Nat) : ℚ :=
  match s.getD t (Tok.prec 0) with
  | Tok.prec q => q
  | _ => 0

/-- Decimal exponent of a nonzero rational: the unique `e` with
`10 ^ e ≤ |q| < 10 ^ (e + 1)`, computed from the digit counts of numerator
and denominator. -/
def decExp (q : ℚ) : Int :=
  if (10 : ℚ) ^ ((Nat.log 10 q.num.natAbs : Int) - (Nat.log 10 q.den : Int)) ≤ |q| then
    (Nat.log 10 q.num.natAbs : Int) - (Nat.log 10 q.den : Int)
  else (Nat.log 10 q.num.natAbs : Int) - (Nat.log 10 q.den : Int) - 1

/-- Value denoted by the decimal text that `fprintf("%lg ", x)` emits,
modelled from the C library contract: `%g` with its default precision
prints at most 6 significant decimal digits, i.e. the value rounded to the
form `d.ddddd · 10^e`; `fscanf("%lf")` parses that exact decimal value
back.  Zero prints and reparses as zero. -/
def fmtG6 (q : ℚ) : ℚ :=
  if q = 0 then 0
  else
    ((round (q * (10 : ℚ) ^ ((5 : Int) - decExp q)) : Int) : ℚ) /
      (10 : ℚ) ^ ((5 : Int) - decExp q)

/-- Matrix whose elements are the 6-significant-digit decimal renderings of
the elements of `M` (what survives a text-format round trip). -/
def fmtMat (M : Mat) : Mat :=
  ⟨M.rows, M.cols, fun i j => fmtG6 (M.entry i j)⟩

/-- Embedding of `m_fprint`: a `rows cols` header, then the elements row by
row (outer loop over rows, inner over columns), each rendered by
`fprintf("%lg ")`. -/
def m_fprint (M : Mat) : List Tok :=
  Tok.int M.rows :: Tok.int M.cols ::
    ((List.range M.rows).flatMap fun i =>
      (List.range M.cols).map fun j => Tok.prec (fmtG6 (M.entry i j)))

/-- Embedding of `m_fscan`: reads `rows cols`, then `rows*cols` elements in
the same row-major order, storing the `(i*cols + j)`-th one at `(i, j)`. -/
def m_fscan (s : List Tok) : Mat :=
  match s with
  | Tok.int r :: Tok.int c :: rest =>
      ⟨r.toNat, c.toNat, fun i j => getPrec rest (i * c.toNat + j)⟩
  | _ => ⟨0, 0, fun _ _ => 0⟩

/-- Column-major data buffer of a matrix: `elem(M, i, j)` lives at
`data[j*rows + i]`, so index `t` holds `entry (t % rows) (t / rows)`. -/
def colMajor (M : Mat) : List ℚ :=
  (List.range (M.rows * M.cols)).map fun t => M.entry (t % M.rows) (t / M.rows)

/-- Embedding of `m_fwrite`: raw `rows`, `cols`, then the raw element
buffer, written bitwise (no conversion, hence exact on one platform). -/
def m_fwrite (M : Mat) : List Tok :=
  Tok.int M.rows :: Tok.int M.cols :: (colMajor M).map Tok.prec

/-- Embedding of `m_fread`: reads the two counts and then `rows*cols` raw
elements into the column-major buffer. -/
def m_fread (s : List Tok) : Mat :=
  match s with
  | Tok.int r :: Tok.int c :: rest =>
      ⟨r.toNat, c.toNat, fun i j => getPrec rest (j * r.toNat + i)⟩
  | _ => ⟨0, 0, fun _ _ => 0⟩

/-- Embedding of `m_mean_column`: sum of the columns (accumulated into a
calloc-zeroed vector) divided by the column count. -/
def m_mean_column (M : Mat) : Mat :=
  ⟨M.rows, 1, fun r _ => (∑ i ∈ Finset.range M.cols, M.entry r i) / M.cols⟩

/-- Embedding of `m_transpose`. -/
def m_transpose (M : Mat) : Mat :=
  ⟨M.cols, M.rows, fun i j => M.entry j i⟩

/-- Embedding of `m_product` / `m_matrix_multiply` (the `cblas_dgemm`
contract: the standard dense product, precondition `A->cols == B->rows`). -/
def m_product (A B : Mat) : Mat :=
  ⟨A.rows, B.cols, fun i j => ∑ k ∈ Finset.range A.cols, A.entry i k * B.entry k j⟩

/-- Embedding of `m_elem_mult`: in-place scaling by a constant. -/
def m_elem_mult (M : Mat) (x : ℚ) : Mat :=
  ⟨M.rows, M.cols, fun i j => M.entry i j * x⟩

/-- Modelled from the spec: the in-place elementwise mutator `m_subtract`
(its matrix.c is absent from src; the README lists it as the elementwise
subtraction used by lda.c, semantics as `m_dot_subtract` but mutating the
receiver). -/
def m_subtract (A B : Mat) : Mat :=
  ⟨A.rows, A.cols, fun i j => A.entry i j - B.entry i j⟩

/-- Modelled from the spec: the in-place elementwise mutator `m_add` (its
matrix.c is absent from src; semantics as `m_dot_add` but mutating the
receiver, used by lda.c to accumulate the scatter sums). -/
def m_add (A B : Mat) : Mat :=
  ⟨A.rows, A.cols, fun i j => A.entry i j + B.entry i j⟩

/-- Embedding of `m_subtract_columns` (the source's `m_normalize_columns`):
subtract a column vector from every column in place. -/
def m_subtract_columns (M a : Mat) : Mat :=
  ⟨M.rows, M.cols, fun i j => M.entry i j - a.entry i 0⟩

/-- Modelled from the spec: `m_copy_columns X j k` (absent from src) copies
columns `j ≤ t < k` of `X` into a fresh `rows × (k - j)` matrix. -/
def m_copy_columns (X : Mat) (j k : Nat) : Mat :=
  ⟨X.rows, k - j, fun r t => X.entry r (j + t)⟩

/-- The boundary scan of `m_scatter`: starting from column `j`, advance `k`
while `entries[k].class == entries[j].class` (stop at the column count,
which equals `entries.length` under the caller's contract). -/
def scanK (entries : List Int) (j : Nat) : Nat :=
  j + (entries.drop j).findIdx fun x => x != entries.getD j 0

/-- Column ranges `[j, k)` of the `c` classes, produced by iterating the
boundary scan of `m_scatter` from column 0. -/
def classBounds (entries : List Int) : Nat → Nat → List (Nat × Nat)
  | 0, _ => []
  | c + 1, j => (j, scanK entries j) :: classBounds entries c (scanK entries j)

/-- Per-class mean column `U[i]` of `m_scatter` for the class block `b`. -/
def scatterU (X : Mat) (b : Nat × Nat) : Mat :=
  m_mean_column (m_copy_columns X b.1 b.2)

/-- The "mean of all classes" vector `u` of `m_scatter`.  The source
allocates `u` with `m_initialize` — a bare `malloc`, which does NOT zero
the storage — and then accumulates `elem(u,j,0) += elem(U[i],j,0)` into it
before dividing by `c`; the indeterminate initial contents of the buffer
are the parameter `g`. -/
def scatterGrand (X : Mat) (c : Nat) (entries : List Int) (g : Nat → ℚ) : Mat :=
  ⟨X.rows, 1, fun r _ =>
    (g r + ((classBounds entries c 0).map fun b => (scatterU X b).entry r 0).sum) / c⟩

/-- One between-scatter term `S_b_i = n_i * (u_i - u) * (u_i - u)'` of
`m_scatter` (`n_i` is the class's column count `k - j`). -/
def scatterSbTerm (X : Mat) (u : Mat) (b : Nat × Nat) : Mat :=
  m_elem_mult
    (m_product (m_subtract (scatterU X b) u) (m_transpose (m_subtract (scatterU X b) u)))
    (b.2 - b.1)

/-- One within-scatter term `S_w_i = X_class * X_class'` of `m_scatter`,
with `X_class` mean-subtracted in place first. -/
def scatterSwTerm (X : Mat) (b : Nat × Nat) : Mat :=
  m_product (m_subtract_columns (m_copy_columns X b.1 b.2) (scatterU X b))
    (m_transpose (m_subtract_columns (m_copy_columns X b.1 b.2) (scatterU X b)))

/-- Embedding of `m_scatter`: computes the class blocks, the per-class
means, the grand mean `u` (with `g` the indeterminate initial contents of
its malloc'd buffer) and accumulates the between- and within-scatter terms
into the matrices `S_b0`, `S_w0` passed by the caller (zero matrices in
`LDA`). -/
def m_scatter (X : Mat) (c : Nat) (entries : List Int) (g : Nat → ℚ)
    (S_b0 S_w0 : Mat) : Mat × Mat :=
  ((classBounds entries c 0).foldl
      (fun S b => m_add S (scatterSbTerm X (scatterGrand X c entries g) b)) S_b0,
    (classBounds entries c 0).foldl (fun S b => m_add S (scatterSwTerm X b)) S_w0)

/-- Grand mean as the claim states it: the unweighted mean of the per-class
mean columns, each class weighted equally. -/
def specGrandMean (rows : Nat) (means : List Mat) : Mat :=
  ⟨rows, 1, fun r _ => ((means.map fun U => U.entry r 0).sum) / means.length⟩

/-- Between-class scatter as the claim states it:
`Σ_i class_count_i · (mean_i − grand_mean)·(mean_i − grand_mean)ᵗ` over the
class blocks. -/
def specSb (X : Mat) (bounds : List (Nat × Nat)) : Mat :=
  ⟨X.rows, X.rows, fun p q =>
    (bounds.map fun b =>
      ((b.2 - b.1 : Nat) : ℚ) *
        ((scatterU X b).entry p 0 - (specGrandMean X.rows (bounds.map (scatterU X))).entry p 0) *
        ((scatterU X b).entry q 0 - (specGrandMean X.rows (bounds.map (scatterU X))).entry q 0)).sum⟩

/-- Squared Euclidean distance of the projected test image to training
column `i`: `(norm(ProjectedTestImage - q))^2` of Recognition.m. -/
def projDist (P t : Mat) (i : Nat) : ℚ :=
  ∑ r ∈ Finset.range P.rows, (t.entry r 0 - P.entry r i) ^ 2

/-- The `Euc_dist` list of Recognition.m, built over the training columns
in index order. -/
def Euc_dist (P t : Mat) : List ℚ :=
  (List.range P.cols).map (projDist P t)

/-- Scan underlying MATLAB's `min`: keep the smallest value seen so far and
the index where it first occurred (a strictly smaller value is required to
displace the incumbent, so the first occurrence wins ties). -/
def argminAux : List ℚ → ℚ → Nat → Nat → Nat
  | [], _, bi, _ => bi
  | x :: xs, best, bi, ci =>
      if x < best then argminAux xs x ci (ci + 1) else argminAux xs best bi (ci + 1)

/-- Modelled from the spec and MATLAB's documented `min` semantics: the
(0-based) index of the first occurrence of the minimum of a list
(MATLAB's `OutputName` is this index plus one). -/
def argminFirst : List ℚ → Nat
  | [] => 0
  | x :: xs => argminAux xs x 0 1

/-- Modelled from the spec: the nearest-neighbor match of `db_recognize`
(whose body is absent from src), as implemented by the
`[Euc_dist_min, OutputName] = min(Euc_dist)` step of
MATLAB/PCA/Recognition.m: the training column at minimal squared Euclidean
distance from the projected test image, first index on ties. -/
def recognizeIdx (P t : Mat) : Nat :=
  argminFirst (Euc_dist P t)

lemma getD_range_map {α : Type} (f : Nat → α) {n k : Nat} (d : α) (hk : k < n) :
    ((List.range n).map f).getD k d = f k := by
  rw [List.getD_eq_getElem?_getD, List.getElem?_map, List.getElem?_range hk]
  rfl

lemma getD_flatMap_range {α : Type} (d : α) :
    ∀ (i r c j : Nat) (f : Nat → Nat → α), i < r → j < c →
      ((List.range r).flatMap fun a => (List.range c).map (f a)).getD (i * c + j) d
        = f i j := by
  intro i
  induction i with
  | zero =>
      intro r c j f hr hj
      obtain ⟨r', rfl⟩ : ∃ r', r = r' + 1 := ⟨r - 1, by omega⟩
      rw [List.range_succ_eq_map, List.flatMap_cons, Nat.zero_mul, Nat.zero_add,
        List.getD_append]
      · exact getD_range_map (f 0) d hj
      · simpa using hj
  | succ i ih =>
      intro r c j f hr hj
      obtain ⟨r', rfl⟩ : ∃ r', r = r' + 1 := ⟨r - 1, by omega⟩
      rw [List.range_succ_eq_map, List.flatMap_cons, List.flatMap_map,
        List.getD_append_right]
      · have h1 : (i + 1) * c + j - ((List.range c).map (f 0)).length = i * c + j := by
          simp only [List.length_map, List.length_range]
          rw [Nat.succ_mul]
          omega
        rw [h1]
        exact ih r' c j (fun a => f (a + 1)) (by omega) hj
      · simp only [List.length_map, List.length_range]
        rw [Nat.succ_mul]
        omega

lemma getPrec_map_prec : ∀ (l : List ℚ) (t : Nat), getPrec (l.map Tok.prec) t = l.getD t 0 := by
  intro l
  induction l with
  | nil => intro t; cases t <;> rfl
  | cons x xs ih =>
      intro t
      cases t with
      | zero => rfl
      | succ t => exact ih t

lemma foldl_min_le_init (l : List ℚ) : ∀ a : ℚ, l.foldl min a ≤ a := by
  induction l with
  | nil => simp
  | cons x xs ih =>
      intro a
      exact le_trans (ih (min a x)) (min_le_left _ _)

lemma foldl_min_le_mem (l : List ℚ) : ∀ a x, x ∈ l → l.foldl min a ≤ x := by
  induction l with
  | nil => simp
  | cons y ys ih =>
      intro a x hx
      rcases List.mem_cons.mp hx with h | h
      · subst h
        exact le_trans (foldl_min_le_init ys _) (min_le_right _ _)
      · exact ih _ _ h

lemma le_foldl_max_init (l : List ℚ) : ∀ a : ℚ, a ≤ l.foldl max a := by
  induction l with
  | nil => simp
  | cons x xs ih =>
      intro a
      exact le_trans (le_max_left _ _) (ih (max a x))

lemma mem_le_foldl_max (l : List ℚ) : ∀ a x, x ∈ l → x ≤ l.foldl max a := by
  induction l with
  | nil => simp
  | cons y ys ih =>
      intro a x hx
      rcases List.mem_cons.mp hx with h | h
      · subst h
        exact le_trans (le_max_right _ _) (le_foldl_max_init ys _)
      · exact ih _ _ h

lemma entry_mem_elemsRM (M : Mat) {i j : Nat} (hi : i < M.rows) (hj : j < M.cols) :
    M.entry i j ∈ elemsRM M :=
  List.mem_flatMap.mpr
    ⟨i, List.mem_range.mpr hi, List.mem_map.mpr ⟨j, List.mem_range.mpr hj, rfl⟩⟩

lemma mMin_le_entry (M : Mat) {i j : Nat} (hi : i < M.rows) (hj : j < M.cols) :
    mMin M ≤ M.entry i j :=
  foldl_min_le_mem _ _ _ (entry_mem_elemsRM M hi hj)

lemma entry_le_mMax (M : Mat) {i j : Nat} (hi : i < M.rows) (hj : j < M.cols) :
    M.entry i j ≤ mMax M :=
  mem_le_foldl_max _ _ _ (entry_mem_elemsRM M hi hj)

lemma fmtG6_one_ulp : fmtG6 ((1048577 : ℚ) / 1048576) = 1 := by
  have hq : ((1048577 : ℚ) / 1048576) ≠ 0 := by norm_num
  have h1 : ((1048577 : ℚ) / 1048576).num.natAbs = 1048577 := by norm_num
  have h2 : ((1048577 : ℚ) / 1048576).den = 1048576 := by norm_num
  have hl1 : Nat.log 10 1048577 = 6 :=
    Nat.log_eq_of_pow_le_of_lt_pow (by norm_num) (by norm_num)
  have hl2 : Nat.log 10 1048576 = 6 :=
    Nat.log_eq_of_pow_le_of_lt_pow (by norm_num) (by norm_num)
  have habs : |((1048577 : ℚ) / 1048576)| = (1048577 : ℚ) / 1048576 :=
    abs_of_nonneg (by norm_num)
  have hd : decExp ((1048577 : ℚ) / 1048576) = 0 := by
    unfold decExp
    rw [h1, h2, hl1, hl2, habs, if_pos (by norm_num)]
    norm_num
  unfold fmtG6
  rw [if_neg hq, hd]
  rw [show ((5 : Int) - 0) = 5 by norm_num]
  have hr : round (((1048577 : ℚ) / 1048576) * (10 : ℚ) ^ (5 : Int)) = 100000 := by
    rw [round_eq]
    norm_num
  rw [hr]
  norm_num

/-- C2 (counterexample): the text-format round trip is not the identity.
The 1×1 matrix holding `1 + 2^-20` (a value exactly representable as a C
double) prints under `%lg` as `1` — six significant digits — and reads back
as `1`, which differs from the stored element. -/
theorem C2_text_roundtrip_counterexample :
    ¬ MatEq (m_fscan (m_fprint ⟨1, 1, fun _ _ => (1048577 : ℚ) / 1048576⟩))
      ⟨1, 1, fun _ _ => (1048577 : ℚ) / 1048576⟩ := by
  intro h
  have he : (m_fscan (m_fprint (⟨1, 1, fun _ _ => (1048577 : ℚ) / 1048576⟩ : Mat))).entry 0 0
      = fmtG6 ((1048577 : ℚ) / 1048576) := rfl
  have h00 := h.2.2 0 (by decide) 0 (by decide)
  rw [he, fmtG6_one_ulp] at h00
  exact absurd h00.symm (by norm_num)

/-- C2 (amended): the binary round trip `m_fread ∘ m_fwrite` reproduces
every matrix element-for-element; the text round trip `m_fscan ∘ m_fprint`
reproduces the matrix whose elements are the 6-significant-digit `%lg`
renderings of the originals (so it is exact only on matrices all of whose
elements survive that rounding). -/
theorem C2_serialization_roundtrip (M : Mat) :
    MatEq (m_fread (m_fwrite M)) M ∧ MatEq (m_fscan (m_fprint M)) (fmtMat M) := by
  constructor
  · refine ⟨by simp [m_fread, m_fwrite], by simp [m_fread, m_fwrite], ?_⟩
    intro i hi j hj
    have hi' : i < M.rows := by simpa [m_fread, m_fwrite] using hi
    have hj' : j < M.cols := by simpa [m_fread, m_fwrite] using hj
    have hr0 : 0 < M.rows := by omega
    show getPrec ((colMajor M).map Tok.prec) (j * (M.rows : Int).toNat + i) = M.entry i j
    rw [Int.toNat_natCast, getPrec_map_prec]
    unfold colMajor
    have hbound : j * M.rows + i < M.rows * M.cols := by
      calc j * M.rows + i < (j + 1) * M.rows := by rw [Nat.succ_mul]; omega
        _ ≤ M.cols * M.rows := Nat.mul_le_mul_right _ hj'
        _ = M.rows * M.cols := Nat.mul_comm _ _
    rw [getD_range_map _ _ hbound]
    have hmod : (j * M.rows + i) % M.rows = i := by
      rw [Nat.add_comm (j * M.rows) i, Nat.mul_comm j M.rows, Nat.add_mul_mod_self_left,
        Nat.mod_eq_of_lt hi']
    have hdiv : (j * M.rows + i) / M.rows = j := by
      rw [Nat.add_comm (j * M.rows) i, Nat.add_mul_div_right _ _ hr0,
        Nat.div_eq_of_lt hi', Nat.zero_add]
    rw [hmod, hdiv]
  · refine ⟨by simp [m_fscan, m_fprint, fmtMat], by simp [m_fscan, m_fprint, fmtMat], ?_⟩
    intro i hi j hj
    have hi' : i < M.rows := by simpa [m_fscan, m_fprint] using hi
    have hj' : j < M.cols := by simpa [m_fscan, m_fprint] using hj
    show getPrec
        ((List.range M.rows).flatMap fun a =>
          (List.range M.cols).map fun b => Tok.prec (fmtG6 (M.entry a b)))
        (i * (M.cols : Int).toNat + j) = fmtG6 (M.entry i j)
    rw [Int.toNat_natCast]
    unfold getPrec
    rw [getD_flatMap_range (Tok.prec 0) i M.rows M.cols j _ hi' hj']

/-- C2 (witness): the round-trip theorem applied to a concrete matrix. -/
theorem C2_serialization_roundtrip_witness :
    MatEq (m_fread (m_fwrite (m_identity 2))) (m_identity 2) ∧
      MatEq (m_fscan (m_fprint (m_identity 2))) (fmtMat (m_identity 2)) :=
  C2_serialization_roundtrip (m_identity 2)

/-- C1 (counterexample): on the singular 1×1 matrix `[0]` the LU
factorization reports singularity and `m_inverseMatrix` executes `exit(1)`
— the process terminates; no `Singular` error value is ever produced for
the caller (the embedding has no error-report outcome because the source
has no error-reporting path). -/
theorem C1_singular_inverse_counterexample :
    m_inverseMatrix ⟨1, 1, fun _ _ => 0⟩ = CRes.exited 1 := by
  have h : trueDet (⟨1, 1, fun _ _ => 0⟩ : Mat) = 0 := by
    norm_num [trueDet, specDet, Finset.sum_range_succ]
  simp [m_inverseMatrix, h]

/-- C1 (amended): whenever the input matrix is singular (determinant zero,
which is exactly when the LU factorization reports singularity in exact
arithmetic), `m_inverseMatrix` terminates the process via `exit(1)` instead
of surfacing a recoverable `Singular` error; consequently the LDA training
path, which inverts `S_w` with this routine, aborts the whole run on a
singular within-class scatter. -/
theorem C1_singular_inverse_exits (M : Mat) (h : trueDet M = 0) :
    m_inverseMatrix M = CRes.exited 1 := by
  simp [m_inverseMatrix, h]

/-- C1 (witness): the amended theorem applied to the singular 2×2 all-ones
matrix. -/
theorem C1_singular_inverse_exits_witness :
    trueDet ⟨2, 2, fun _ _ => 1⟩ = 0 ∧
      m_inverseMatrix ⟨2, 2, fun _ _ => 1⟩ = CRes.exited 1 :=
  ⟨by norm_num [trueDet, specDet, minor0, Finset.sum_range_succ],
    C1_singular_inverse_exits ⟨2, 2, fun _ _ => 1⟩
      (by norm_num [trueDet, specDet, minor0, Finset.sum_range_succ])⟩

/-- C4 (code evaluated at the failing input): `m_determinant` returns 1 on
the 1×1 and 2×2 identity matrices but `-1` on the 3×3 identity — the sign
factor reads the stale loop variable `i`, which equals `M->rows` after the
fill loop, so every cofactor term of an odd-order expansion is negated.
The mathematical determinant of the same matrix is 1. -/
theorem C4_identity_determinant_eval :
    m_determinant (m_identity 1) = 1 ∧ m_determinant (m_identity 2) = 1 ∧
      m_determinant (m_identity 3) = -1 ∧ trueDet (m_identity 3) = 1 := by
  refine ⟨?_, ?_, ?_, ?_⟩ <;>
    norm_num [m_determinant, det_aux, minor0, xsign, bxor01, m_identity,
      trueDet, specDet, Finset.sum_range_succ]

/-- C6 (code evaluated at the failing input): on the 4×4 identity, the
cofactor matrix entry `R(0,0)` should be `(-1)^(0+0)` times the determinant
of the 3×3 identity minor, i.e. `1`; the source computes `-1` because
`m_cofactor` evaluates its minors with the sign-defective `m_determinant`
(the minors here are of odd order 3). -/
theorem C6_cofactor_eval :
    (m_cofactor (m_identity 4)).entry 0 0 = -1 ∧ xsign 0 0 = 1 ∧
      trueDet (minorIJ (m_identity 4) 0 0) = 1 := by
  refine ⟨?_, ?_, ?_⟩ <;>
    norm_num [m_cofactor, m_determinant, det_aux, minorIJ, minor0, xsign, bxor01,
      m_identity, trueDet, specDet, Finset.sum_range_succ]

/-- C7 (counterexample): on operands of different shapes (here 1×1 and
1×2) the three elementwise binary operations hit the C `assert` and the
process aborts — no `DimensionMismatch` error value is reported to the
caller. -/
theorem C7_shape_mismatch_counterexample :
    m_dot_subtract ⟨1, 1, fun _ _ => 1⟩ ⟨1, 2, fun _ _ => 1⟩ = CRes.assertFailed ∧
      m_dot_add ⟨1, 1, fun _ _ => 1⟩ ⟨1, 2, fun _ _ => 1⟩ = CRes.assertFailed ∧
      m_dot_division ⟨1, 1, fun _ _ => 1⟩ ⟨1, 2, fun _ _ => 1⟩ = CRes.assertFailed := by
  refine ⟨?_, ?_, ?_⟩ <;> simp [m_dot_subtract, m_dot_add, m_dot_division]

/-- C7 (amended): the elementwise add, subtract and divide require
identical row and column counts — enforced by a C `assert` that aborts the
process on mismatch rather than reporting a `DimensionMismatch` error —
and on matching shapes each returns a newly allocated elementwise result,
leaving both operands unchanged. -/
theorem C7_dot_ops_same_shape (A B : Mat) (hr : A.rows = B.rows) (hc : A.cols = B.cols) :
    m_dot_subtract A B = CRes.ok ⟨A.rows, A.cols, fun i j => A.entry i j - B.entry i j⟩ ∧
      m_dot_add A B = CRes.ok ⟨A.rows, A.cols, fun i j => A.entry i j + B.entry i j⟩ ∧
      m_dot_division A B = CRes.ok ⟨A.rows, A.cols, fun i j => A.entry i j / B.entry i j⟩ := by
  refine ⟨?_, ?_, ?_⟩ <;> simp [m_dot_subtract, m_dot_add, m_dot_division, hr, hc]

/-- C7 (witness): the amended theorem applied to two 1×1 matrices. -/
theorem C7_dot_ops_same_shape_witness :
    m_dot_division ⟨1, 1, fun _ _ => 6⟩ ⟨1, 1, fun _ _ => 3⟩
      = CRes.ok ⟨1, 1, fun i j =>
          (⟨1, 1, fun _ _ => 6⟩ : Mat).entry i j / (⟨1, 1, fun _ _ => 3⟩ : Mat).entry i j⟩ :=
  (C7_dot_ops_same_shape ⟨1, 1, fun _ _ => 6⟩ ⟨1, 1, fun _ _ => 3⟩ rfl rfl).2.2

/-- C9: on every square matrix of order at least 3, `m_determinant`
unfolds to the cofactor expansion along the first row in which every
recursive call receives the `(n-1)×(n-1)` minor `minor0`, so the recursion
is well-founded on the matrix order (the Lean embedding is structurally
recursive on it, which is the totality witness); `m_cofactor` calls the
determinant only on the `(n-1)×(n-1)` minors `minorIJ`. -/
theorem C9_determinant_recursion (M : Mat) (hsq : M.rows = M.cols) (h3 : 3 ≤ M.rows) :
    m_determinant M
        = ∑ j ∈ Finset.range M.cols,
            xsign M.rows j * M.entry 0 j * m_determinant (minor0 M j) ∧
      (∀ j, (minor0 M j).rows = M.rows - 1 ∧ (minor0 M j).cols = M.cols - 1) ∧
      (∀ i j, (m_cofactor M).entry j i = xsign i j * m_determinant (minorIJ M i j) ∧
        (minorIJ M i j).rows = M.rows - 1 ∧ (minorIJ M i j).cols = M.cols - 1) := by
  obtain ⟨n, hn⟩ : ∃ n, M.rows = n + 3 := ⟨M.rows - 3, by omega⟩
  refine ⟨?_, fun j => ⟨rfl, rfl⟩, fun i j => ⟨rfl, rfl, rfl⟩⟩
  have hmr : ∀ j : Nat, (minor0 M j).rows = n + 2 := fun j => by
    show M.rows - 1 = n + 2
    omega
  rw [show m_determinant M = det_aux M.rows M from rfl, hn]
  simp only [det_aux]
  refine Finset.sum_congr rfl fun j _ => ?_
  rw [show m_determinant (minor0 M j) = det_aux (minor0 M j).rows (minor0 M j) from rfl,
    hmr j, hn]

/-- C9 (witness): the recursion equation instantiated on the 3×3 identity. -/
theorem C9_determinant_recursion_witness :
    m_determinant (m_identity 3)
        = ∑ j ∈ Finset.range (m_identity 3).cols,
            xsign (m_identity 3).rows j * (m_identity 3).entry 0 j
              * m_determinant (minor0 (m_identity 3) j) :=
  (C9_determinant_recursion (m_identity 3) rfl (by norm_num [m_identity])).1

/-- C8 (counterexample): on the constant 1×1 matrix `[5]` the sole element
is simultaneously the minimum and the maximum, and `m_normalize` divides by
`max - min = 0` (NaN in C, `0` under the ℚ convention), so the maximum
element is not mapped to 1 — the operation is not well defined for every
element of every matrix. -/
theorem C8_constant_matrix_counterexample :
    (⟨1, 1, fun _ _ => 5⟩ : Mat).entry 0 0 = mMax ⟨1, 1, fun _ _ => 5⟩ ∧
      (m_normalize ⟨1, 1, fun _ _ => 5⟩).entry 0 0 ≠ 1 := by
  constructor
  · simp [mMax, elemsRM, List.range_succ]
  · show ((5 : ℚ) - mMin ⟨1, 1, fun _ _ => 5⟩)
        / (mMax ⟨1, 1, fun _ _ => 5⟩ - mMin ⟨1, 1, fun _ _ => 5⟩) ≠ 1
    have h1 : mMin (⟨1, 1, fun _ _ => 5⟩ : Mat) = 5 := by
      simp [mMin, elemsRM, List.range_succ]
    have h2 : mMax (⟨1, 1, fun _ _ => 5⟩ : Mat) = 5 := by
      simp [mMax, elemsRM, List.range_succ]
    rw [h1, h2]
    norm_num

/-- C8 (amended): provided the elements are not all equal (the scanned
minimum is strictly below the scanned maximum), min-max normalization maps
every element into `[0, 1]`, sends every element equal to the minimum to 0
and every element equal to the maximum to 1; on a constant matrix the
divisor `max - min` is zero and the C code produces NaN instead. -/
theorem C8_normalize_bounds (M : Mat) (hlt : mMin M < mMax M) :
    ∀ i < M.rows, ∀ j < M.cols,
      0 ≤ (m_normalize M).entry i j ∧ (m_normalize M).entry i j ≤ 1 ∧
        (M.entry i j = mMin M → (m_normalize M).entry i j = 0) ∧
        (M.entry i j = mMax M → (m_normalize M).entry i j = 1) := by
  intro i hi j hj
  have hmin := mMin_le_entry M hi hj
  have hmax := entry_le_mMax M hi hj
  have hden : 0 < mMax M - mMin M := by linarith
  refine ⟨div_nonneg (by linarith) (le_of_lt hden), ?_, ?_, ?_⟩
  · show (M.entry i j - mMin M) / (mMax M - mMin M) ≤ 1
    rw [div_le_one hden]
    linarith
  · intro h
    show (M.entry i j - mMin M) / (mMax M - mMin M) = 0
    rw [h, sub_self, zero_div]
  · intro h
    show (M.entry i j - mMin M) / (mMax M - mMin M) = 1
    rw [h, div_self (ne_of_gt hden)]

/-- C8 (witness): the amended theorem applied to the 1×2 matrix `[0 2]` at
its first element. -/
theorem C8_normalize_bounds_witness :
    0 ≤ (m_normalize ⟨1, 2, fun _ j => if j = 0 then 0 else 2⟩).entry 0 0 ∧
      (m_normalize ⟨1, 2, fun _ j => if j = 0 then 0 else 2⟩).entry 0 0 ≤ 1 ∧
      ((⟨1, 2, fun _ j => if j = 0 then 0 else 2⟩ : Mat).entry 0 0
          = mMin ⟨1, 2, fun _ j => if j = 0 then 0 else 2⟩ →
        (m_normalize ⟨1, 2, fun _ j => if j = 0 then 0 else 2⟩).entry 0 0 = 0) ∧
      ((⟨1, 2, fun _ j => if j = 0 then 0 else 2⟩ : Mat).entry 0 0
          = mMax ⟨1, 2, fun _ j => if j = 0 then 0 else 2⟩ →
        (m_normalize ⟨1, 2, fun _ j => if j = 0 then 0 else 2⟩).entry 0 0 = 1) :=
  C8_normalize_bounds ⟨1, 2, fun _ j => if j = 0 then 0 else 2⟩
    (by norm_num [mMin, mMax, elemsRM, List.range_succ, List.range_succ])
    0 (by norm_num) 0 (by norm_num)

lemma argminAux_go (F : List ℚ) :
    ∀ (xs : List ℚ) (best : ℚ) (bi ci : Nat),
      F.drop ci = xs → bi < ci → bi < F.length →
      F.getD bi 0 = best →
      (∀ k, k < ci → k < F.length → best ≤ F.getD k 0) →
      (∀ k < bi, best < F.getD k 0) →
      argminAux xs best bi ci < F.length ∧
        (∀ k < F.length, F.getD (argminAux xs best bi ci) 0 ≤ F.getD k 0) ∧
        (∀ k < argminAux xs best bi ci, F.getD (argminAux xs best bi ci) 0 < F.getD k 0) := by
  intro xs
  induction xs with
  | nil =>
      intro best bi ci hdrop hbc hbl hbest hmin hstrict
      have hlen : F.length ≤ ci := by
        have h1 := congrArg List.length hdrop
        simp [List.length_drop] at h1
        omega
      simp only [argminAux]
      refine ⟨hbl, ?_, ?_⟩
      · intro k hk
        rw [hbest]
        exact hmin k (by omega) hk
      · intro k hk
        rw [hbest]
        exact hstrict k hk
  | cons x xs ih =>
      intro best bi ci hdrop hbc hbl hbest hmin hstrict
      have hlen : (F.drop ci).length = F.length - ci := List.length_drop ..
      have hci : ci < F.length := by
        rw [hdrop] at hlen
        simp at hlen
        omega
      have hx : F.getD ci 0 = x := by
        have h0 : F[ci]? = some x := by
          have h1 := congrArg (fun l => l[0]?) hdrop
          simpa [List.getElem?_drop] using h1
        simp [List.getD_eq_getElem?_getD, h0]
      have hdrop' : F.drop (ci + 1) = xs := by
        have h2 : (F.drop ci).drop 1 = xs := by rw [hdrop]; rfl
        rw [List.drop_drop] at h2
        exact h2
      simp only [argminAux]
      by_cases hlt : x < best
      · rw [if_pos hlt]
        refine ih x ci (ci + 1) hdrop' (by omega) hci hx ?_ ?_
        · intro k hk hkl
          rcases Nat.lt_succ_iff_lt_or_eq.mp hk with h | h
          · exact le_of_lt (lt_of_lt_of_le hlt (hmin k h hkl))
          · subst h
            rw [hx]
        · intro k hk
          exact lt_of_lt_of_le hlt (hmin k hk (by omega))
      · rw [if_neg hlt]
        refine ih best bi (ci + 1) hdrop' (by omega) hbl hbest ?_ hstrict
        intro k hk hkl
        rcases Nat.lt_succ_iff_lt_or_eq.mp hk with h | h
        · exact hmin k h hkl
        · subst h
          rw [hx]
          exact le_of_not_lt hlt

lemma argminFirst_spec (l : List ℚ) (hne : l ≠ []) :
    argminFirst l < l.length ∧
      (∀ k < l.length, l.getD (argminFirst l) 0 ≤ l.getD k 0) ∧
      (∀ k < argminFirst l, l.getD (argminFirst l) 0 < l.getD k 0) := by
  cases l with
  | nil => exact absurd rfl hne
  | cons x xs =>
      simp only [argminFirst]
      refine argminAux_go (x :: xs) xs x 0 1 rfl (by omega) (by simp) rfl ?_ ?_
      · intro k hk _
        interval_cases k
        simp
      · intro k hk
        omega

/-- C5: for every projected training set and projected test image with at
least one training column, the reported match index is a valid training
column, its squared Euclidean distance to the test image is minimal over
all training columns, and every strictly earlier column has strictly larger
distance — so when several columns attain the minimum, the lowest training
index is reported. -/
theorem C5_nearest_neighbor (P t : Mat) (hc : 0 < P.cols) :
    recognizeIdx P t < P.cols ∧
      (∀ j < P.cols, projDist P t (recognizeIdx P t) ≤ projDist P t j) ∧
      (∀ j < recognizeIdx P t, projDist P t (recognizeIdx P t) < projDist P t j) := by
  have hne : Euc_dist P t ≠ [] := by
    simp only [Euc_dist, ne_eq, List.map_eq_nil_iff, List.range_eq_nil]
    omega
  have hlen : (Euc_dist P t).length = P.cols := by
    simp [Euc_dist]
  have hgd : ∀ k < P.cols, (Euc_dist P t).getD k 0 = projDist P t k := by
    intro k hk
    exact getD_range_map (projDist P t) 0 hk
  obtain ⟨h1, h2, h3⟩ := argminFirst_spec (Euc_dist P t) hne
  rw [hlen] at h1 h2
  simp only [recognizeIdx]
  refine ⟨h1, ?_, ?_⟩
  · intro j hj
    have h4 := h2 j hj
    rwa [hgd _ h1, hgd _ hj] at h4
  · intro j hj
    have h4 := h3 j hj
    rwa [hgd _ h1, hgd _ (lt_trans hj h1)] at h4

/-- C5 (witness): the nearest-neighbor theorem applied to a concrete 1×2
projected training set and test vector (distances 9 and 0; column 1 wins). -/
theorem C5_nearest_neighbor_witness :
    recognizeIdx ⟨1, 2, fun _ j => if j = 0 then 3 else 0⟩ ⟨1, 1, fun _ _ => 0⟩
        < (⟨1, 2, fun _ j => if j = 0 then 3 else 0⟩ : Mat).cols ∧
      (∀ j < (⟨1, 2, fun _ j => if j = 0 then 3 else 0⟩ : Mat).cols,
        projDist ⟨1, 2, fun _ j => if j = 0 then 3 else 0⟩ ⟨1, 1, fun _ _ => 0⟩
            (recognizeIdx ⟨1, 2, fun _ j => if j = 0 then 3 else 0⟩ ⟨1, 1, fun _ _ => 0⟩)
          ≤ projDist ⟨1, 2, fun _ j => if j = 0 then 3 else 0⟩ ⟨1, 1, fun _ _ => 0⟩ j) ∧
      (∀ j < recognizeIdx ⟨1, 2, fun _ j => if j = 0 then 3 else 0⟩ ⟨1, 1, fun _ _ => 0⟩,
        projDist ⟨1, 2, fun _ j => if j = 0 then 3 else 0⟩ ⟨1, 1, fun _ _ => 0⟩
            (recognizeIdx ⟨1, 2, fun _ j => if j = 0 then 3 else 0⟩ ⟨1, 1, fun _ _ => 0⟩)
          < projDist ⟨1, 2, fun _ j => if j = 0 then 3 else 0⟩ ⟨1, 1, fun _ _ => 0⟩ j) :=
  C5_nearest_neighbor ⟨1, 2, fun _ j => if j = 0 then 3 else 0⟩ ⟨1, 1, fun _ _ => 0⟩
    (by norm_num)

lemma length_filter_range (p : Nat → Bool) (n : Nat) :
    ((List.range n).filter p).length = ∑ j ∈ Finset.range n, if p j then 1 else 0 := by
  induction n with
  | zero => simp
  | succ n ih =>
      rw [List.range_succ, List.filter_append, List.length_append, ih, Finset.sum_range_succ]
      by_cases h : p n <;> simp [h]

lemma length_filter_rmIdx (r c : Nat) (q : Nat → Nat → Bool) :
    (((List.range r).flatMap fun i => (List.range c).map fun j => (i, j)).filter
        fun p => q p.1 p.2).length
      = ∑ i ∈ Finset.range r, ∑ j ∈ Finset.range c, if q i j then 1 else 0 := by
  induction r with
  | zero => simp
  | succ r ih =>
      rw [List.range_succ, List.flatMap_append, List.filter_append, List.length_append, ih,
        Finset.sum_range_succ]
      congr 1
      rw [show ([r] : List Nat).flatMap (fun i => (List.range c).map fun j => (i, j))
            = (List.range c).map fun j => (r, j) by simp]
      rw [List.filter_map, List.length_map]
      exact length_filter_range _ c

/-- C10: `m_findNonZeros` returns an `(rows*cols) × 1` vector; its first
`k` entries — where `k` is the number of nonzero in-range elements of `M` —
are the 1-based row indices of the nonzero elements in the row-major scan
order (the column index is discarded), and all remaining entries are 0. -/
theorem C10_findNonZeros_spec (M : Mat) :
    (m_findNonZeros M).rows = M.rows * M.cols ∧
      (m_findNonZeros M).cols = 1 ∧
      (nzRows M).length = nonzeroCount M ∧
      nonzeroCount M ≤ M.rows * M.cols ∧
      (∀ t (h : t < ((rmIdx M).filter fun p => M.entry p.1 p.2 != 0).length),
        (m_findNonZeros M).entry t 0
          = ((((rmIdx M).filter fun p => M.entry p.1 p.2 != 0).get ⟨t, h⟩).1 : ℚ) + 1) ∧
      (∀ t, ((rmIdx M).filter fun p => M.entry p.1 p.2 != 0).length ≤ t →
        (m_findNonZeros M).entry t 0 = 0) := by
  have hlen : (nzRows M).length = ((rmIdx M).filter fun p => M.entry p.1 p.2 != 0).length :=
    List.length_map ..
  refine ⟨rfl, rfl, ?_, ?_, ?_, ?_⟩
  · rw [hlen]
    unfold rmIdx nonzeroCount
    rw [length_filter_rmIdx M.rows M.cols fun i j => M.entry i j != 0]
    refine Finset.sum_congr rfl fun i _ => Finset.sum_congr rfl fun j _ => ?_
    simp [bne_iff_ne]
  · unfold nonzeroCount
    calc (∑ i ∈ Finset.range M.rows, ∑ j ∈ Finset.range M.cols,
            if M.entry i j ≠ 0 then 1 else 0)
        ≤ ∑ i ∈ Finset.range M.rows, ∑ j ∈ Finset.range M.cols, 1 :=
          Finset.sum_le_sum fun i _ => Finset.sum_le_sum fun j _ => by
            by_cases h : M.entry i j ≠ 0 <;> simp [h]
      _ = M.rows * M.cols := by simp [Finset.sum_const, Finset.card_range, mul_comm]
  · intro t h
    show (nzRows M).getD t 0 = _
    rw [List.getD_eq_getElem?_getD, List.getElem?_eq_getElem (hlen ▸ h)]
    simp [nzRows, List.getElem_map, List.get_eq_getElem]
  · intro t ht
    show (nzRows M).getD t 0 = 0
    exact List.getD_eq_default _ _ (hlen ▸ ht)

/-- C10 (witness): the theorem applied to the 2×2 identity, whose nonzero
elements in row-major order are at `(0,0)` and `(1,1)`. -/
theorem C10_findNonZeros_spec_witness :
    (m_findNonZeros (m_identity 2)).rows = (m_identity 2).rows * (m_identity 2).cols ∧
      (m_findNonZeros (m_identity 2)).cols = 1 ∧
      (nzRows (m_identity 2)).length = nonzeroCount (m_identity 2) ∧
      nonzeroCount (m_identity 2) ≤ (m_identity 2).rows * (m_identity 2).cols ∧
      (∀ t (h : t <
          ((rmIdx (m_identity 2)).filter fun p =>
            (m_identity 2).entry p.1 p.2 != 0).length),
        (m_findNonZeros (m_identity 2)).entry t 0
          = ((((rmIdx (m_identity 2)).filter fun p =>
              (m_identity 2).entry p.1 p.2 != 0).get ⟨t, h⟩).1 : ℚ) + 1) ∧
      (∀ t, ((rmIdx (m_identity 2)).filter fun p =>
          (m_identity 2).entry p.1 p.2 != 0).length ≤ t →
        (m_findNonZeros (m_identity 2)).entry t 0 = 0) :=
  C10_findNonZeros_spec (m_identity 2)

/-- C3 (code evaluated at the failing input): `m_scatter` accumulates the
grand mean into a buffer obtained from `m_initialize` — a bare `malloc`
that does not zero the storage.  With the indeterminate initial contents of
that buffer equal to 2, a training set `X = [1 3]` of two one-column
classes yields a computed grand mean of `(2 + 1 + 3)/2 = 3` instead of the
unweighted mean of class means `(1 + 3)/2 = 2`, and a computed
between-class scatter `S_b = 4` instead of the claim's
`Σ n_i (μ_i − ū)(μ_i − ū)ᵗ = 2`.  The claim's formulas hold only if the
uninitialized heap memory happens to contain zeros. -/
theorem C3_uninitialized_grand_mean_eval :
    (scatterGrand ⟨1, 2, fun _ j => if j = 0 then 1 else 3⟩ 2 [0, 1] (fun _ => 2)).entry 0 0 = 3 ∧
      (specGrandMean 1 ((classBounds [0, 1] 2 0).map
        (scatterU ⟨1, 2, fun _ j => if j = 0 then 1 else 3⟩))).entry 0 0 = 2 ∧
      ((m_scatter ⟨1, 2, fun _ j => if j = 0 then 1 else 3⟩ 2 [0, 1] (fun _ => 2)
          (m_zeros 1 1) (m_zeros 1 1)).1).entry 0 0 = 4 ∧
      (specSb ⟨1, 2, fun _ j => if j = 0 then 1 else 3⟩ (classBounds [0, 1] 2 0)).entry 0 0 = 2 := by
  have hb : classBounds ([0, 1] : List Int) 2 0 = [(0, 1), (1, 2)] := by
    have h1 : scanK ([0, 1] : List Int) 0 = 1 := by simp [scanK, List.findIdx_cons]
    have h2 : scanK ([0, 1] : List Int) 1 = 2 := by simp [scanK, List.findIdx_cons]
    simp [classBounds, h1, h2]
  refine ⟨?_, ?_, ?_, ?_⟩
  · norm_num [scatterGrand, hb, scatterU, m_mean_column, m_copy_columns,
      Finset.sum_range_succ]
  · norm_num [specGrandMean, hb, scatterU, m_mean_column, m_copy_columns,
      Finset.sum_range_succ]
  · norm_num [m_scatter, hb, m_add, m_zeros, scatterSbTerm, scatterGrand, scatterU,
      m_elem_mult, m_product, m_transpose, m_subtract, m_mean_column, m_copy_columns,
      Finset.sum_range_succ]
  · norm_num [specSb, hb, specGrandMean, scatterU, m_mean_column, m_copy_columns,
      Finset.sum_range_succ]
